import Mathlib

/-!
Verification of the policy engine and effect scanner of the cargo-scan
repository, as a shallow embedding in Lean 4.

The embedding follows `src/rust-src/src/policy.rs` (policy language and
lookup index) and `src/src/scanner.rs` (effect scanner and scan results).
Rust `HashMap<K, HashSet<V>>` values are modelled as functions
`K → Option (Finset V)` (a key absent from the map is `none`);
`HashSet` insertion is modelled by `Finset.insert`.  A Rust function
that can panic (`unimplemented!`) is modelled as returning `Option`,
with `none` for the panic.
-/

namespace CargoScan

/-- `ident::Path` (named `IdentPath` at its use sites): a dotted
fully-qualified identifier, a wrapper around a string. -/
abbrev IdentPath := String

/-- `ident::FnCall`: a pair of a function path and a literal textual
argument pattern (`""` is the wildcard). -/
structure FnCall where
  fn_path : IdentPath
  args : String
deriving DecidableEq, Repr

/-- `FnCall::new(path, args)`. -/
def FnCall.new (path : IdentPath) (args : String) : FnCall :=
  { fn_path := path, args := args }

/-- `FnCall::new_all(path)`: wildcard arguments. -/
def FnCall.new_all (path : IdentPath) : FnCall :=
  { fn_path := path, args := "" }

/-- `policy::Statement`: the three statement forms of the audit policy
language. -/
inductive Statement where
  | allow (region : FnCall) (effect : FnCall)
  | require (region : FnCall) (effect : FnCall)
  | trust (region : FnCall)
deriving DecidableEq, Repr

/-- `policy::Policy`: crate metadata plus an ordered list of statements. -/
structure Policy where
  crate_name : String
  crate_version : String
  policy_version : String
  statements : List Statement
deriving DecidableEq, Repr

/-- `Policy::new`: empty statement list. -/
def Policy.new (crate_name crate_version policy_version : String) : Policy :=
  { crate_name := crate_name, crate_version := crate_version,
    policy_version := policy_version, statements := [] }

/-- `Policy::add_statement`: push a statement at the end of the list. -/
def Policy.add_statement (p : Policy) (s : Statement) : Policy :=
  { p with statements := p.statements ++ [s] }

/-- Model of `HashMap<IdentPath, HashSet<IdentPath>>`: a key not present
in the map is `none`. -/
abbrev SetMap := IdentPath → Option (Finset IdentPath)

/-- Model of `map.entry(k).or_default().insert(v)`: the set at key `k`
(the empty set when `k` is absent) grows by `v`. -/
def SetMap.insertAt (m : SetMap) (k v : IdentPath) : SetMap :=
  fun x => if x = k then some (insert v ((m k).getD ∅)) else m x

/-- `policy::PolicyLookup`: the two per-caller maps-of-sets. -/
structure PolicyLookup where
  allow_sets : SetMap
  require_sets : SetMap

/-- `PolicyLookup::empty`. -/
def PolicyLookup.empty : PolicyLookup :=
  { allow_sets := fun _ => none, require_sets := fun _ => none }

/-- `PolicyLookup::add_statement`.  The `Trust` arm is `unimplemented!`
in the source, modelled as `none` (panic); the other arms return the
updated lookup. -/
def PolicyLookup.add_statement (lk : PolicyLookup) (stmt : Statement) :
    Option PolicyLookup :=
  match stmt with
  | .allow r e =>
      some { lk with
        allow_sets := lk.allow_sets.insertAt r.fn_path e.fn_path }
  | .require r e =>
      -- require encompasses allow
      some { allow_sets := lk.allow_sets.insertAt r.fn_path e.fn_path,
             require_sets := lk.require_sets.insertAt r.fn_path e.fn_path }
  | .trust _ => none

/-- `PolicyLookup::from_policy`: stream every statement of the policy
through `add_statement`, starting from the empty lookup. -/
def PolicyLookup.from_policy (p : Policy) : Option PolicyLookup :=
  p.statements.foldlM PolicyLookup.add_statement PolicyLookup.empty

/-- `PolicyLookup::mark_of_interest`: a dangerous callee requires itself. -/
def PolicyLookup.mark_of_interest (lk : PolicyLookup) (callee : IdentPath) :
    PolicyLookup :=
  { lk with require_sets := lk.require_sets.insertAt callee callee }

/-- `PolicyLookup::allow_list_contains`: `Ok` when the caller's allow
list exists and holds the effect, `Err` with a diagnostic otherwise. -/
def PolicyLookup.allow_list_contains (lk : PolicyLookup)
    (caller effect : IdentPath) : Except String Unit :=
  match lk.allow_sets caller with
  | some allow =>
      if effect ∈ allow then
        .ok ()
      else
        .error ("Allow list for function " ++ caller ++
          " missing effect " ++ effect)
  | none =>
      .error ("No allow list for function " ++ caller ++
        " with effect " ++ effect)

/-- `PolicyLookup::iter_requirements`: the elements of
`require_sets[callee]`, the empty sequence when absent.  A `HashSet` is
iterated in an unspecified order; the model enumerates the set in
sorted order. -/
def PolicyLookup.iter_requirements (lk : PolicyLookup) (callee : IdentPath) :
    List IdentPath :=
  ((lk.require_sets callee).getD ∅).sort (· ≤ ·)

/-- `PolicyLookup::check_edge`: push one diagnostic onto `error_list`
for every requirement of the callee missing from the caller's allow
list. -/
def PolicyLookup.check_edge (lk : PolicyLookup) (caller callee : IdentPath)
    (error_list : List String) : List String :=
  (lk.iter_requirements callee).foldl
    (fun errs req =>
      match lk.allow_list_contains caller req with
      | .ok _ => errs
      | .error err => errs ++ [err])
    error_list

/-- `PolicyLookup::check_edge_bool`: `false` as soon as one requirement
of the callee is missing from the caller's allow list, `true` otherwise. -/
def PolicyLookup.check_edge_bool (lk : PolicyLookup)
    (caller callee : IdentPath) : Bool :=
  (lk.iter_requirements callee).all fun req =>
    match lk.allow_list_contains caller req with
    | .ok _ => true
    | .error _ => false

/-! ### Basic lemmas about the edge checker -/

/-- The boolean test inside `check_edge_bool` for one requirement. -/
def PolicyLookup.allow_ok (lk : PolicyLookup) (caller req : IdentPath) : Bool :=
  match lk.allow_list_contains caller req with
  | .ok _ => true
  | .error _ => false

theorem PolicyLookup.check_edge_bool_eq_all (lk : PolicyLookup)
    (caller callee : IdentPath) :
    lk.check_edge_bool caller callee =
      (lk.iter_requirements callee).all (lk.allow_ok caller) := rfl

theorem PolicyLookup.allow_ok_iff (lk : PolicyLookup) (caller req : IdentPath) :
    lk.allow_ok caller req = true ↔
      req ∈ (lk.allow_sets caller).getD ∅ := by
  unfold PolicyLookup.allow_ok PolicyLookup.allow_list_contains
  cases h : lk.allow_sets caller with
  | none => simp [h]
  | some allow =>
      simp only [h, Option.getD_some]
      by_cases hm : req ∈ allow <;> simp [hm]

theorem PolicyLookup.mem_iter_requirements (lk : PolicyLookup)
    (callee req : IdentPath) :
    req ∈ lk.iter_requirements callee ↔
      req ∈ (lk.require_sets callee).getD ∅ := by
  unfold PolicyLookup.iter_requirements
  exact Finset.mem_sort _

/-- Core characterization: the boolean edge checker accepts exactly when
the callee's requirement set is contained in the caller's allow set
(absent entries read as the empty set). -/
theorem PolicyLookup.check_edge_bool_iff_subset (lk : PolicyLookup)
    (caller callee : IdentPath) :
    lk.check_edge_bool caller callee = true ↔
      (lk.require_sets callee).getD ∅ ⊆ (lk.allow_sets caller).getD ∅ := by
  rw [PolicyLookup.check_edge_bool_eq_all, List.all_eq_true]
  constructor
  · intro h req hreq
    exact (lk.allow_ok_iff caller req).mp
      (h req ((lk.mem_iter_requirements callee req).mpr hreq))
  · intro h req hreq
    exact (lk.allow_ok_iff caller req).mpr
      (h ((lk.mem_iter_requirements callee req).mp hreq))

/-- C1: `check_edge_bool(caller, callee)` returns `true` if and only if
every element of `require_sets[callee]` (the empty set when the callee
has no entry) is a member of `allow_sets[caller]` (the empty set when
the caller has no entry); in particular a callee with no requirements
always passes. -/
theorem C1_check_edge_bool_correct (lk : PolicyLookup)
    (caller callee : IdentPath) :
    (lk.check_edge_bool caller callee = true ↔
      ∀ req ∈ (lk.require_sets callee).getD ∅,
        req ∈ (lk.allow_sets caller).getD ∅) ∧
    (lk.require_sets callee = none → lk.check_edge_bool caller callee = true) := by
  constructor
  · exact lk.check_edge_bool_iff_subset caller callee
  · intro h
    rw [lk.check_edge_bool_iff_subset caller callee, h]
    simp

/-! ### The diagnostic checker `check_edge` against the boolean checker -/

/-- The diagnostics contributed by one requirement in `check_edge`. -/
def PolicyLookup.err_out (lk : PolicyLookup) (caller req : IdentPath) :
    List String :=
  match lk.allow_list_contains caller req with
  | .ok _ => []
  | .error err => [err]

theorem PolicyLookup.check_edge_eq_foldl (lk : PolicyLookup)
    (caller callee : IdentPath) (error_list : List String) :
    lk.check_edge caller callee error_list =
      (lk.iter_requirements callee).foldl
        (fun errs req => errs ++ lk.err_out caller req) error_list := by
  unfold PolicyLookup.check_edge
  congr 1
  funext errs req
  unfold PolicyLookup.err_out
  cases lk.allow_list_contains caller req <;> simp

theorem foldl_append_extract {α β : Type} (h : α → List β) :
    ∀ (l : List α) (a : List β),
      l.foldl (fun acc x => acc ++ h x) a =
        a ++ l.foldl (fun acc x => acc ++ h x) [] := by
  intro l
  induction l with
  | nil => simp
  | cons x l ih =>
      intro a
      rw [List.foldl_cons, List.foldl_cons, ih (a ++ h x), ih ([] ++ h x)]
      simp

theorem foldl_append_eq_nil_iff {α β : Type} (h : α → List β) (l : List α) :
    l.foldl (fun acc x => acc ++ h x) [] = [] ↔ ∀ x ∈ l, h x = [] := by
  induction l with
  | nil => simp
  | cons x l ih =>
      rw [List.foldl_cons, foldl_append_extract]
      simp [ih]

theorem PolicyLookup.err_out_eq_nil_iff (lk : PolicyLookup)
    (caller req : IdentPath) :
    lk.err_out caller req = [] ↔ lk.allow_ok caller req = true := by
  unfold PolicyLookup.err_out PolicyLookup.allow_ok
  cases lk.allow_list_contains caller req <;> simp

/-- C5: the boolean checker and the diagnostic checker decide every edge
identically: `check_edge_bool(caller, callee)` is `true` exactly when
`check_edge(caller, callee, error_list)` appends no diagnostic to
`error_list`. -/
theorem C5_check_edge_bool_iff_no_diagnostics (lk : PolicyLookup)
    (caller callee : IdentPath) (error_list : List String) :
    lk.check_edge_bool caller callee = true ↔
      lk.check_edge caller callee error_list = error_list := by
  rw [lk.check_edge_eq_foldl caller callee error_list,
    foldl_append_extract, PolicyLookup.check_edge_bool_eq_all,
    List.all_eq_true]
  constructor
  · intro h
    have : (lk.iter_requirements callee).foldl
        (fun acc x => acc ++ lk.err_out caller x) [] = [] := by
      rw [foldl_append_eq_nil_iff]
      intro req hreq
      exact (lk.err_out_eq_nil_iff caller req).mpr (h req hreq)
    simp [this]
  · intro h req hreq
    have hx : (lk.iter_requirements callee).foldl
        (fun acc x => acc ++ lk.err_out caller x) [] = [] := by
      have := congrArg List.length h
      simpa using this
    rw [foldl_append_eq_nil_iff] at hx
    exact (lk.err_out_eq_nil_iff caller req).mp (hx req hreq)

/-! ### Building the lookup: growth, require propagation, trust -/

theorem SetMap.getD_subset_insertAt (m : SetMap) (k v k' : IdentPath) :
    (m k').getD ∅ ⊆ ((m.insertAt k v) k').getD ∅ := by
  unfold SetMap.insertAt
  by_cases h : k' = k
  · subst h
    simp [Finset.subset_insert]
  · simp [h]

theorem SetMap.mem_insertAt_self (m : SetMap) (k v : IdentPath) :
    v ∈ ((m.insertAt k v) k).getD ∅ := by
  unfold SetMap.insertAt
  simp

/-- One `add_statement` step never removes an element from either map. -/
theorem PolicyLookup.add_statement_subset {lk0 lk1 : PolicyLookup}
    {s : Statement} (h : lk0.add_statement s = some lk1) (k : IdentPath) :
    (lk0.allow_sets k).getD ∅ ⊆ (lk1.allow_sets k).getD ∅ ∧
    (lk0.require_sets k).getD ∅ ⊆ (lk1.require_sets k).getD ∅ := by
  cases s with
  | allow r e =>
      simp only [PolicyLookup.add_statement, Option.some.injEq] at h
      subst h
      exact ⟨SetMap.getD_subset_insertAt _ _ _ _, le_refl _⟩
  | require r e =>
      simp only [PolicyLookup.add_statement, Option.some.injEq] at h
      subst h
      exact ⟨SetMap.getD_subset_insertAt _ _ _ _,
        SetMap.getD_subset_insertAt _ _ _ _⟩
  | trust r =>
      simp [PolicyLookup.add_statement] at h

/-- Folding any statement list never removes an element from either map. -/
theorem PolicyLookup.foldlM_subset {l : List Statement}
    {lk0 lk : PolicyLookup}
    (h : l.foldlM PolicyLookup.add_statement lk0 = some lk) (k : IdentPath) :
    (lk0.allow_sets k).getD ∅ ⊆ (lk.allow_sets k).getD ∅ ∧
    (lk0.require_sets k).getD ∅ ⊆ (lk.require_sets k).getD ∅ := by
  induction l generalizing lk0 with
  | nil =>
      simp only [List.foldlM_nil, Option.pure_def, Option.some.injEq] at h
      subst h
      exact ⟨le_refl _, le_refl _⟩
  | cons s l ih =>
      rw [List.foldlM_cons] at h
      cases hs : lk0.add_statement s with
      | none => rw [hs] at h; simp at h
      | some lk1 =>
          rw [hs] at h
          simp only [Option.bind_eq_bind, Option.some_bind] at h
          have h1 := PolicyLookup.add_statement_subset hs k
          have h2 := ih h
          exact ⟨h1.1.trans h2.1, h1.2.trans h2.2⟩

theorem PolicyLookup.mem_require_foldlM {l : List Statement} {r e : FnCall}
    {lk0 lk : PolicyLookup}
    (h2 : Statement.require r e ∈ l)
    (h1 : l.foldlM PolicyLookup.add_statement lk0 = some lk) :
    e.fn_path ∈ (lk.require_sets r.fn_path).getD ∅ ∧
    e.fn_path ∈ (lk.allow_sets r.fn_path).getD ∅ := by
  induction l generalizing lk0 with
  | nil => simp at h2
  | cons s l ih =>
      rw [List.foldlM_cons] at h1
      cases hs : lk0.add_statement s with
      | none => rw [hs] at h1; simp at h1
      | some lk1 =>
          rw [hs] at h1
          simp only [Option.bind_eq_bind, Option.some_bind] at h1
          rcases List.mem_cons.mp h2 with hhead | htail
          · subst hhead
            simp only [PolicyLookup.add_statement, Option.some.injEq] at hs
            subst hs
            have hsub := PolicyLookup.foldlM_subset h1 r.fn_path
            exact ⟨hsub.2 (SetMap.mem_insertAt_self _ _ _),
              hsub.1 (SetMap.mem_insertAt_self _ _ _)⟩
          · exact ih htail h1

/-- C2: for every policy `p` and every statement `Require{r, e}` in `p`,
when `from_policy(p)` returns a lookup, `e.fn_path` is a member of both
`require_sets[r.fn_path]` and `allow_sets[r.fn_path]`. -/
theorem C2_require_propagation (p : Policy) (r e : FnCall)
    (lk : PolicyLookup) (h1 : PolicyLookup.from_policy p = some lk)
    (h2 : Statement.require r e ∈ p.statements) :
    e.fn_path ∈ (lk.require_sets r.fn_path).getD ∅ ∧
    e.fn_path ∈ (lk.allow_sets r.fn_path).getD ∅ :=
  PolicyLookup.mem_require_foldlM h2 h1

/-- A witness for C2 on a one-statement policy. -/
def c2_policy : Policy :=
  { crate_name := "ex", crate_version := "0.1", policy_version := "0.1",
    statements := [Statement.require (FnCall.new_all "foo")
      (FnCall.new_all "std::effect")] }

theorem C2_require_propagation_witness :
    (PolicyLookup.from_policy c2_policy =
        some ((PolicyLookup.from_policy c2_policy).getD PolicyLookup.empty)) ∧
    (Statement.require (FnCall.new_all "foo") (FnCall.new_all "std::effect")
        ∈ c2_policy.statements) ∧
    ("std::effect" ∈
        (((PolicyLookup.from_policy c2_policy).getD
          PolicyLookup.empty).require_sets "foo").getD ∅ ∧
      "std::effect" ∈
        (((PolicyLookup.from_policy c2_policy).getD
          PolicyLookup.empty).allow_sets "foo").getD ∅) :=
  ⟨rfl, by decide,
    C2_require_propagation c2_policy (FnCall.new_all "foo")
      (FnCall.new_all "std::effect") _ rfl (by decide)⟩

/-- `add_statement` (hence `from_policy`) fails exactly on a `Trust`
statement: the `Trust` arm is `unimplemented!`. -/
theorem PolicyLookup.foldlM_eq_none_iff (l : List Statement) :
    ∀ lk0 : PolicyLookup,
      l.foldlM PolicyLookup.add_statement lk0 = none ↔
        ∃ r, Statement.trust r ∈ l := by
  induction l with
  | nil => simp
  | cons s l ih =>
      intro lk0
      rw [List.foldlM_cons]
      cases s with
      | allow r e =>
          simp only [PolicyLookup.add_statement, Option.bind_eq_bind, Option.some_bind]
          rw [ih]
          constructor
          · rintro ⟨r', hr'⟩
            exact ⟨r', List.mem_cons_of_mem _ hr'⟩
          · rintro ⟨r', hr'⟩
            rcases List.mem_cons.mp hr' with h | h
            · exact absurd h (by simp)
            · exact ⟨r', h⟩
      | require r e =>
          simp only [PolicyLookup.add_statement, Option.bind_eq_bind, Option.some_bind]
          rw [ih]
          constructor
          · rintro ⟨r', hr'⟩
            exact ⟨r', List.mem_cons_of_mem _ hr'⟩
          · rintro ⟨r', hr'⟩
            rcases List.mem_cons.mp hr' with h | h
            · exact absurd h (by simp)
            · exact ⟨r', h⟩
      | trust r =>
          simp [PolicyLookup.add_statement]

/-- C7: `from_policy(p)` fails to return (the `Trust` lookup arm is
`unimplemented!`) exactly when `p` contains a `Trust` statement; a
policy with no `Trust` statement builds a lookup normally. -/
theorem C7_trust_unimplemented (p : Policy) :
    PolicyLookup.from_policy p = none ↔
      ∃ r, Statement.trust r ∈ p.statements := by
  unfold PolicyLookup.from_policy
  exact PolicyLookup.foldlM_eq_none_iff p.statements PolicyLookup.empty

/-! ### Insertion-order independence of the lookup index -/

theorem SetMap.insertAt_comm (m : SetMap) (k₁ v₁ k₂ v₂ : IdentPath) :
    (m.insertAt k₁ v₁).insertAt k₂ v₂ = (m.insertAt k₂ v₂).insertAt k₁ v₁ := by
  funext x
  unfold SetMap.insertAt
  by_cases h12 : k₁ = k₂
  · subst h12
    by_cases hx : x = k₁ <;> simp [hx, Finset.Insert.comm]
  · by_cases hx1 : x = k₁ <;> by_cases hx2 : x = k₂ <;> simp_all

/-- The fold step of `from_policy` lifted to `Option`. -/
def addStatementStep (o : Option PolicyLookup) (s : Statement) :
    Option PolicyLookup :=
  o.bind fun lk => lk.add_statement s

theorem addStatementStep_right_comm (o : Option PolicyLookup)
    (s t : Statement) :
    addStatementStep (addStatementStep o s) t =
      addStatementStep (addStatementStep o t) s := by
  cases o with
  | none => simp [addStatementStep]
  | some lk =>
      cases s with
      | allow r₁ e₁ =>
          cases t with
          | allow r₂ e₂ =>
              simp only [addStatementStep, PolicyLookup.add_statement,
                Option.some_bind]
              rw [SetMap.insertAt_comm]
          | require r₂ e₂ =>
              simp only [addStatementStep, PolicyLookup.add_statement,
                Option.some_bind]
              rw [SetMap.insertAt_comm]
          | trust r₂ =>
              simp [addStatementStep, PolicyLookup.add_statement]
      | require r₁ e₁ =>
          cases t with
          | allow r₂ e₂ =>
              simp only [addStatementStep, PolicyLookup.add_statement,
                Option.some_bind]
              rw [SetMap.insertAt_comm]
          | require r₂ e₂ =>
              simp only [addStatementStep, PolicyLookup.add_statement,
                Option.some_bind]
              rw [SetMap.insertAt_comm lk.allow_sets,
                SetMap.insertAt_comm lk.require_sets]
          | trust r₂ =>
              simp [addStatementStep, PolicyLookup.add_statement]
      | trust r₁ =>
          cases t <;> simp [addStatementStep, PolicyLookup.add_statement]

theorem foldl_addStatementStep_none (l : List Statement) :
    l.foldl addStatementStep none = none := by
  induction l with
  | nil => rfl
  | cons s l ih => rw [List.foldl_cons]; exact ih

theorem foldlM_add_statement_eq_foldl (l : List Statement) :
    ∀ b : PolicyLookup,
      l.foldlM PolicyLookup.add_statement b =
        l.foldl addStatementStep (some b) := by
  induction l with
  | nil => intro b; rfl
  | cons s l ih =>
      intro b
      rw [List.foldlM_cons, List.foldl_cons]
      cases hs : b.add_statement s with
      | none =>
          simp only [Option.bind_eq_bind, Option.none_bind]
          rw [show addStatementStep (some b) s = none by
            simp [addStatementStep, hs]]
          exact (foldl_addStatementStep_none l).symm
      | some b1 =>
          simp only [Option.bind_eq_bind, Option.some_bind]
          rw [show addStatementStep (some b) s = some b1 by
            simp [addStatementStep, hs]]
          exact ih b1

/-- C4: for every permutation of a policy's statement list,
`from_policy` yields the same result: the same pair of maps-of-sets
when it succeeds, and failure exactly together. -/
theorem C4_insertion_order_independence (p q : Policy)
    (h : p.statements.Perm q.statements) :
    PolicyLookup.from_policy p = PolicyLookup.from_policy q := by
  unfold PolicyLookup.from_policy
  rw [foldlM_add_statement_eq_foldl, foldlM_add_statement_eq_foldl]
  exact h.foldl_eq'
    (fun x _ y _ z => addStatementStep_right_comm z x y)
    (some PolicyLookup.empty)

/-- A witness for C4 on a two-statement policy and its reversal. -/
def c4_policy_a : Policy :=
  { crate_name := "ex", crate_version := "0.1", policy_version := "0.1",
    statements := [Statement.allow (FnCall.new_all "foo")
        (FnCall.new_all "std::effect"),
      Statement.require (FnCall.new_all "bar")
        (FnCall.new_all "libc::effect")] }

/-- The same policy with the two statements swapped. -/
def c4_policy_b : Policy :=
  { crate_name := "ex", crate_version := "0.1", policy_version := "0.1",
    statements := [Statement.require (FnCall.new_all "bar")
        (FnCall.new_all "libc::effect"),
      Statement.allow (FnCall.new_all "foo")
        (FnCall.new_all "std::effect")] }

theorem C4_insertion_order_independence_witness :
    (c4_policy_a.statements.Perm c4_policy_b.statements) ∧
    PolicyLookup.from_policy c4_policy_a =
      PolicyLookup.from_policy c4_policy_b :=
  ⟨by decide, C4_insertion_order_independence c4_policy_a c4_policy_b
    (by decide)⟩

/-! ### Monotonicity of the edge checker under policy extension -/

theorem SetMap.insertAt_apply_self (m : SetMap) (k v : IdentPath) :
    (m.insertAt k v) k = some (insert v ((m k).getD ∅)) := by
  unfold SetMap.insertAt
  simp

theorem SetMap.insertAt_apply_ne (m : SetMap) (k v k' : IdentPath)
    (h : k' ≠ k) : (m.insertAt k v) k' = m k' := by
  unfold SetMap.insertAt
  simp [h]

/-- Extending a policy by one statement folds that statement last. -/
theorem PolicyLookup.from_policy_add_statement (p : Policy) (s : Statement) :
    PolicyLookup.from_policy (p.add_statement s) =
      addStatementStep (PolicyLookup.from_policy p) s := by
  unfold PolicyLookup.from_policy Policy.add_statement
  rw [foldlM_add_statement_eq_foldl, foldlM_add_statement_eq_foldl,
    List.foldl_append]
  rfl

/-- C3, counterexample: adding a `Require` statement can turn a `false`
edge check `true`.  With the single statement `require c eff`, the edge
`(a, c)` fails; after adding `require a eff` (whose propagation also
allows `eff` for `a`), the same edge passes. -/
def c3_policy : Policy :=
  { crate_name := "ex", crate_version := "0.1", policy_version := "0.1",
    statements := [Statement.require (FnCall.new_all "c")
      (FnCall.new_all "eff")] }

theorem C3_counterexample :
    ((PolicyLookup.from_policy c3_policy).map
        (fun lk => lk.check_edge_bool "a" "c") = some false) ∧
    ((PolicyLookup.from_policy (c3_policy.add_statement
          (Statement.require (FnCall.new_all "a") (FnCall.new_all "eff")))).map
        (fun lk => lk.check_edge_bool "a" "c") = some true) := by
  have e1 : PolicyLookup.from_policy c3_policy =
      some { allow_sets := SetMap.insertAt (fun _ => none) "c" "eff",
             require_sets := SetMap.insertAt (fun _ => none) "c" "eff" } := rfl
  have e2 : PolicyLookup.from_policy (c3_policy.add_statement
        (Statement.require (FnCall.new_all "a") (FnCall.new_all "eff"))) =
      some { allow_sets :=
               SetMap.insertAt (SetMap.insertAt (fun _ => none) "c" "eff")
                 "a" "eff",
             require_sets :=
               SetMap.insertAt (SetMap.insertAt (fun _ => none) "c" "eff")
                 "a" "eff" } := rfl
  rw [e1, e2]
  simp only [Option.map_some', Option.some.injEq]
  constructor
  · rw [Bool.eq_false_iff, Ne, PolicyLookup.check_edge_bool_iff_subset]
    dsimp only
    rw [SetMap.insertAt_apply_self, Option.getD_some,
      SetMap.insertAt_apply_ne _ _ _ _ (by decide : ("a" : String) ≠ "c")]
    intro hsub
    exact absurd (hsub (Finset.mem_insert_self _ _)) (by simp)
  · rw [PolicyLookup.check_edge_bool_iff_subset]
    dsimp only
    rw [SetMap.insertAt_apply_ne _ _ _ _ (by decide : ("c" : String) ≠ "a"),
      SetMap.insertAt_apply_self, Option.getD_some,
      SetMap.insertAt_apply_self, Option.getD_some,
      SetMap.insertAt_apply_ne _ _ _ _ (by decide : ("a" : String) ≠ "c")]

/-- C3, amended: adding an `Allow` statement can only turn `false`
results `true`; adding a `Require{r, e}` statement can only turn `true`
results `false` for edges whose caller is not `r.fn_path`, while for
edges whose caller is `r.fn_path` it can only turn `false` results
`true` (because a requirement also inserts the effect into the region's
own allow set). -/
theorem C3_amended_monotonicity (p : Policy) (r e : FnCall)
    (caller callee : IdentPath) (lk lkA lkR : PolicyLookup)
    (hp : PolicyLookup.from_policy p = some lk)
    (hA : PolicyLookup.from_policy
        (p.add_statement (Statement.allow r e)) = some lkA)
    (hR : PolicyLookup.from_policy
        (p.add_statement (Statement.require r e)) = some lkR) :
    (lk.check_edge_bool caller callee = true →
      lkA.check_edge_bool caller callee = true) ∧
    (caller ≠ r.fn_path →
      lkR.check_edge_bool caller callee = true →
        lk.check_edge_bool caller callee = true) ∧
    (caller = r.fn_path →
      lk.check_edge_bool caller callee = true →
        lkR.check_edge_bool caller callee = true) := by
  rw [PolicyLookup.from_policy_add_statement, hp] at hA hR
  simp only [addStatementStep, Option.some_bind, PolicyLookup.add_statement,
    Option.some.injEq] at hA hR
  subst hA
  subst hR
  rw [PolicyLookup.check_edge_bool_iff_subset,
    PolicyLookup.check_edge_bool_iff_subset,
    PolicyLookup.check_edge_bool_iff_subset]
  refine ⟨?_, ?_, ?_⟩
  · -- one more Allow statement: requirements unchanged, allow set grows
    intro h
    exact h.trans (SetMap.getD_subset_insertAt _ _ _ _)
  · -- one more Require statement, caller outside the region
    intro hne h
    dsimp only at h
    rw [SetMap.insertAt_apply_ne _ _ _ _ hne] at h
    exact (SetMap.getD_subset_insertAt lk.require_sets r.fn_path e.fn_path
      callee).trans h
  · -- one more Require statement, caller inside the region
    intro heq h
    subst heq
    dsimp only
    rw [SetMap.insertAt_apply_self, Option.getD_some]
    by_cases hc : callee = r.fn_path
    · subst hc
      rw [SetMap.insertAt_apply_self, Option.getD_some]
      exact Finset.insert_subset_insert _ h
    · rw [SetMap.insertAt_apply_ne _ _ _ _ hc]
      exact h.trans (Finset.subset_insert _ _)

/-- A witness for the amended C3 on the counterexample policy. -/
theorem C3_amended_monotonicity_witness :
    (PolicyLookup.from_policy c3_policy =
        some ((PolicyLookup.from_policy c3_policy).getD PolicyLookup.empty)) ∧
    ((((PolicyLookup.from_policy c3_policy).getD
          PolicyLookup.empty).check_edge_bool "a" "c" = true →
        (((PolicyLookup.from_policy (c3_policy.add_statement
            (Statement.allow (FnCall.new_all "c") (FnCall.new_all "eff")))).getD
          PolicyLookup.empty).check_edge_bool "a" "c") = true) ∧
      ("a" ≠ "c" →
        (((PolicyLookup.from_policy (c3_policy.add_statement
            (Statement.require (FnCall.new_all "c") (FnCall.new_all "eff")))).getD
          PolicyLookup.empty).check_edge_bool "a" "c") = true →
        (((PolicyLookup.from_policy c3_policy).getD
          PolicyLookup.empty).check_edge_bool "a" "c") = true) ∧
      ("a" = "c" →
        (((PolicyLookup.from_policy c3_policy).getD
          PolicyLookup.empty).check_edge_bool "a" "c") = true →
        (((PolicyLookup.from_policy (c3_policy.add_statement
            (Statement.require (FnCall.new_all "c") (FnCall.new_all "eff")))).getD
          PolicyLookup.empty).check_edge_bool "a" "c") = true)) :=
  ⟨rfl, C3_amended_monotonicity c3_policy (FnCall.new_all "c")
    (FnCall.new_all "eff") "a" "c" _ _ _ rfl rfl rfl⟩

/-! ### Textual serialization of policies -/

/-- Modelled from the spec: the serde/toml serialization of `Policy` is
not part of this repository's sources; §4.3 and §6 of the spec describe
it as a text key-value table with one `[[statements]]` array entry per
statement, tagged by a discriminator field naming the variant, followed
by the typed fields.  A serialized policy is modelled as the list of
header lines together with one key-value record (its list of lines) per
statement. -/
def serializeStatement : Statement → List String
  | .allow r e =>
      ["type", "Allow", "region_path", r.fn_path, "region_args", r.args,
       "effect_path", e.fn_path, "effect_args", e.args]
  | .require r e =>
      ["type", "Require", "region_path", r.fn_path, "region_args", r.args,
       "effect_path", e.fn_path, "effect_args", e.args]
  | .trust r =>
      ["type", "Trust", "region_path", r.fn_path, "region_args", r.args]

/-- Modelled from the spec: serialization of a whole policy is the
header (crate name, crate version, policy version) followed by one
record per statement. -/
def serializePolicy (p : Policy) : List String × List (List String) :=
  (["crate_name", p.crate_name, "crate_version", p.crate_version,
    "policy_version", p.policy_version],
   p.statements.map serializeStatement)

/-- Modelled from the spec: the single-record parser inverse to
`serializeStatement`, failing on any malformed record. -/
def parseStatement : List String → Option Statement
  | ["type", "Allow", krp, rp, kra, ra, kep, ep, kea, ea] =>
      if krp = "region_path" ∧ kra = "region_args" ∧
          kep = "effect_path" ∧ kea = "effect_args" then
        some (Statement.allow ⟨rp, ra⟩ ⟨ep, ea⟩)
      else none
  | ["type", "Require", krp, rp, kra, ra, kep, ep, kea, ea] =>
      if krp = "region_path" ∧ kra = "region_args" ∧
          kep = "effect_path" ∧ kea = "effect_args" then
        some (Statement.require ⟨rp, ra⟩ ⟨ep, ea⟩)
      else none
  | ["type", "Trust", krp, rp, kra, ra] =>
      if krp = "region_path" ∧ kra = "region_args" then
        some (Statement.trust ⟨rp, ra⟩)
      else none
  | _ => none

/-- Modelled from the spec: the policy parser inverse to
`serializePolicy`, failing on any malformed text. -/
def parsePolicy (text : List String × List (List String)) : Option Policy :=
  match text.1 with
  | [kcn, cn, kcv, cv, kpv, pv] =>
      if kcn = "crate_name" ∧ kcv = "crate_version" ∧
          kpv = "policy_version" then
        (text.2.mapM parseStatement).map
          (fun ss => { crate_name := cn, crate_version := cv,
                       policy_version := pv, statements := ss })
      else none
  | _ => none

theorem parseStatement_serialize (s : Statement) :
    parseStatement (serializeStatement s) = some s := by
  cases s <;> rfl

theorem mapM_parseStatement_serialize (ss : List Statement) :
    (ss.map serializeStatement).mapM parseStatement = some ss := by
  induction ss with
  | nil => rfl
  | cons s ss ih =>
      rw [List.map_cons, List.mapM_cons, parseStatement_serialize, ih]
      rfl

/-- C6: the textual serialization round-trips: parsing the serialization
of any policy constructible via the statement API returns that policy. -/
theorem C6_policy_round_trip (p : Policy) :
    parsePolicy (serializePolicy p) = some p := by
  unfold serializePolicy parsePolicy
  dsimp only
  rw [if_pos ⟨rfl, rfl, rfl⟩, mapM_parseStatement_serialize]
  rfl

/-- Model of `Policy::from_file`.  The function asserts
(`debug_assert_eq!`) that the file extension is `"toml"` — modelled as
failing the load otherwise — then parses the file contents.  The file
extension and the file contents stand in for the filesystem path
argument; the toml parser is the spec-modelled `parsePolicy`. -/
def Policy.from_file (extension : Option String)
    (contents : List String × List (List String)) : Option Policy :=
  if extension = some "toml" then parsePolicy contents else none

/-- C8: loading a policy from a file whose extension is not `"toml"`
fails. -/
theorem C8_from_file_requires_toml (extension : Option String)
    (contents : List String × List (List String))
    (h : extension ≠ some "toml") :
    Policy.from_file extension contents = none := by
  unfold Policy.from_file
  simp [h]

theorem C8_from_file_requires_toml_witness :
    ((some "json" : Option String) ≠ some "toml") ∧
    Policy.from_file (some "json") (["crate_name", "ex"], []) = none :=
  ⟨by decide, C8_from_file_requires_toml (some "json")
    (["crate_name", "ex"], []) (by decide)⟩

/-! ### The effect scanner (union-field accesses)

The embedding follows `src/src/scanner.rs`.  The expression grammar is
the subset of the `syn` expression forms whose scanner cases interact
with field accesses and assignments; each case of `scan_expr` below is
translated one-for-one from the corresponding arm of
`Scanner::scan_expr`.  The name-resolution oracle (`resolve_field`,
`resolve_field_type`, `resolve_path`, `resolve_path_type`,
`resolve_ffi`) is an external contract (§4.1 of the spec) and is a
parameter of the scanner. -/

/-- An identifier appearing in source syntax. -/
abbrev Ident := String

/-- `ident::CanonicalPath`: the resolved fully-qualified identity. -/
abbrev CanonicalPath := String

/-- The type classifier returned by `resolve_path_type`. -/
structure PathType where
  is_function : Bool
  is_fn_ptr : Bool
  is_mut_static : Bool

/-- The type classifier returned by `resolve_field_type`. -/
structure FieldType where
  is_raw_ptr : Bool
  is_union_field : Bool

/-- The name-resolution oracle used by the scanner. -/
structure Resolver where
  resolve_path : Ident → CanonicalPath
  resolve_field : Ident → CanonicalPath
  resolve_path_type : Ident → PathType
  resolve_field_type : Ident → FieldType
  resolve_ffi : Ident → Option CanonicalPath

/-- `syn::Member`: a named field or a tuple index. -/
inductive Member where
  | named (i : Ident)
  | unnamed (idx : Nat)

/-- The subset of `syn::Expr` forms scanned here. -/
inductive Expr where
  | assign (lhs rhs : Expr)
  | binary (lhs rhs : Expr)
  | field (base : Expr) (m : Member)
  | index (e i : Expr)
  | paren (e : Expr)
  | reference (e : Expr)
  | path (p : Ident)
  | lit

/-- The path- and field-level effects emitted by `scan_path` and
`scan_field_access`. -/
inductive ScanEffect where
  | fnPtrCreation (target : CanonicalPath)
  | staticMut (target : CanonicalPath)
  | staticExt (target : CanonicalPath)
  | unionField (target : CanonicalPath)
deriving DecidableEq

/-- The scanner state threaded through the walk: the `scope_assign_lhs`
flag and the accumulated effects. -/
structure ScanState where
  scope_assign_lhs : Bool
  effects : List ScanEffect
deriving DecidableEq

/-- `Scanner::push_effect`: record one effect. -/
def push_effect (st : ScanState) (e : ScanEffect) : ScanState :=
  { st with effects := st.effects ++ [e] }

/-- `Scanner::scan_path`: function-pointer creation, mutable-static and
external-static accesses, as classified by the resolver. -/
def scan_path (R : Resolver) (st : ScanState) (p : Ident) : ScanState :=
  let ty := R.resolve_path_type p
  let st := if ty.is_function || ty.is_fn_ptr then
    push_effect st (.fnPtrCreation (R.resolve_path p)) else st
  let st := if ty.is_mut_static then
    push_effect st (.staticMut (R.resolve_path p)) else st
  if (R.resolve_ffi p).isSome then
    push_effect st (.staticExt (R.resolve_path p)) else st

/-- `Scanner::scan_field_access`: emit a `UnionField` effect for a named
field the resolver classifies as a union field, unless scanning the
left-hand side of an assignment. -/
def scan_field_access (R : Resolver) (st : ScanState) (m : Member) :
    ScanState :=
  match m with
  | .named i =>
      if !(R.resolve_field_type i).is_union_field || st.scope_assign_lhs then
        st
      else
        push_effect st (.unionField (R.resolve_field i))
  | .unnamed _ => st

/-- `Scanner::scan_expr`, restricted to the subset grammar.  The
`assign` arm sets `scope_assign_lhs` for the left operand and clears it
before the right operand, exactly as the source does. -/
def scan_expr (R : Resolver) : ScanState → Expr → ScanState
  | st, .assign l r =>
      let st := { st with scope_assign_lhs := true }
      let st := scan_expr R st l
      let st := { st with scope_assign_lhs := false }
      scan_expr R st r
  | st, .binary l r => scan_expr R (scan_expr R st l) r
  | st, .field b m => scan_field_access R (scan_expr R st b) m
  | st, .index e i => scan_expr R (scan_expr R st e) i
  | st, .paren e => scan_expr R st e
  | st, .reference e => scan_expr R st e
  | st, .path p => scan_path R st p
  | st, .lit => st

/-- `syn::Stmt`, restricted: a `let` binding with optional initializer,
or an expression statement. -/
inductive Stmt where
  | local_stmt (init : Option Expr)
  | expr_stmt (e : Expr)

/-- `Scanner::scan_fn_statement` (restricted): scan the initializer of a
`let`, or the expression of an expression statement. -/
def scan_fn_statement (R : Resolver) (st : ScanState) : Stmt → ScanState
  | .local_stmt (some e) => scan_expr R st e
  | .local_stmt none => st
  | .expr_stmt e => scan_expr R st e

/-- Scanning a function body: fold the statements from the initial
scanner state (`scope_assign_lhs = false`, no effects). -/
def scan_body (R : Resolver) (stmts : List Stmt) : ScanState :=
  stmts.foldl (scan_fn_statement R) { scope_assign_lhs := false, effects := [] }

/-- The targets of the `UnionField` effects in a list of effects. -/
def unionFieldTargets (effs : List ScanEffect) : List CanonicalPath :=
  effs.filterMap fun e =>
    match e with
    | .unionField t => some t
    | _ => none

/-! ### Compositional characterization of the scanner walk -/

/-- The effects contributed by `scan_path` for one path expression. -/
def pathDelta (R : Resolver) (p : Ident) : List ScanEffect :=
  (if (R.resolve_path_type p).is_function || (R.resolve_path_type p).is_fn_ptr
    then [ScanEffect.fnPtrCreation (R.resolve_path p)] else []) ++
  (if (R.resolve_path_type p).is_mut_static
    then [ScanEffect.staticMut (R.resolve_path p)] else []) ++
  (if (R.resolve_ffi p).isSome
    then [ScanEffect.staticExt (R.resolve_path p)] else [])

theorem scan_path_eq (R : Resolver) (st : ScanState) (p : Ident) :
    scan_path R st p = ⟨st.scope_assign_lhs, st.effects ++ pathDelta R p⟩ := by
  unfold scan_path pathDelta push_effect
  by_cases h1 : ((R.resolve_path_type p).is_function ||
      (R.resolve_path_type p).is_fn_ptr) = true <;>
    by_cases h2 : (R.resolve_path_type p).is_mut_static = true <;>
      by_cases h3 : (R.resolve_ffi p).isSome = true <;>
        simp [h1, h2, h3]

/-- The effects contributed by `scan_field_access` for one member
access, given the current `scope_assign_lhs` flag. -/
def fieldDelta (R : Resolver) (fl : Bool) (m : Member) : List ScanEffect :=
  match m with
  | .named i =>
      if !(R.resolve_field_type i).is_union_field || fl then []
      else [ScanEffect.unionField (R.resolve_field i)]
  | .unnamed _ => []

theorem scan_field_access_eq (R : Resolver) (st : ScanState) (m : Member) :
    scan_field_access R st m =
      ⟨st.scope_assign_lhs,
        st.effects ++ fieldDelta R st.scope_assign_lhs m⟩ := by
  cases m with
  | named i =>
      unfold scan_field_access fieldDelta push_effect
      by_cases h : (!(R.resolve_field_type i).is_union_field ||
          st.scope_assign_lhs) = true <;> simp [h]
  | unnamed idx => simp [scan_field_access, fieldDelta]

/-- The `scope_assign_lhs` flag after scanning one expression, starting
from flag `b`. -/
def exprFlag (R : Resolver) : Bool → Expr → Bool
  | _, .assign _ r => exprFlag R false r
  | b, .binary l r => exprFlag R (exprFlag R b l) r
  | b, .field base _ => exprFlag R b base
  | b, .index e i => exprFlag R (exprFlag R b e) i
  | b, .paren e => exprFlag R b e
  | b, .reference e => exprFlag R b e
  | b, .path _ => b
  | b, .lit => b

/-- The effects emitted while scanning one expression, starting from
flag `b`. -/
def exprEffs (R : Resolver) : Bool → Expr → List ScanEffect
  | _, .assign l r => exprEffs R true l ++ exprEffs R false r
  | b, .binary l r => exprEffs R b l ++ exprEffs R (exprFlag R b l) r
  | b, .field base m =>
      exprEffs R b base ++ fieldDelta R (exprFlag R b base) m
  | b, .index e i => exprEffs R b e ++ exprEffs R (exprFlag R b e) i
  | b, .paren e => exprEffs R b e
  | b, .reference e => exprEffs R b e
  | _, .path p => pathDelta R p
  | _, .lit => []

/-- `scan_expr` is exactly the compositional semantics: it leaves the
flag at `exprFlag` and appends `exprEffs` to the accumulated effects. -/
theorem scan_expr_eq (R : Resolver) (e : Expr) :
    ∀ (b : Bool) (acc : List ScanEffect),
      scan_expr R ⟨b, acc⟩ e = ⟨exprFlag R b e, acc ++ exprEffs R b e⟩ := by
  induction e with
  | assign l r ihl ihr =>
      intro b acc
      simp only [scan_expr]
      rw [ihl true acc]
      rw [ihr false (acc ++ exprEffs R true l)]
      simp [exprFlag, exprEffs, List.append_assoc]
  | binary l r ihl ihr =>
      intro b acc
      simp only [scan_expr]
      rw [ihl b acc, ihr (exprFlag R b l) (acc ++ exprEffs R b l)]
      simp [exprFlag, exprEffs, List.append_assoc]
  | field base m ihb =>
      intro b acc
      simp only [scan_expr]
      rw [ihb b acc, scan_field_access_eq]
      simp [exprFlag, exprEffs, List.append_assoc]
  | index e i ihe ihi =>
      intro b acc
      simp only [scan_expr]
      rw [ihe b acc, ihi (exprFlag R b e) (acc ++ exprEffs R b e)]
      simp [exprFlag, exprEffs, List.append_assoc]
  | paren e ihe =>
      intro b acc
      simp only [scan_expr]
      rw [ihe b acc]
      simp [exprFlag, exprEffs]
  | reference e ihe =>
      intro b acc
      simp only [scan_expr]
      rw [ihe b acc]
      simp [exprFlag, exprEffs]
  | path p =>
      intro b acc
      simp only [scan_expr]
      rw [scan_path_eq]
      simp [exprFlag, exprEffs]
  | lit =>
      intro b acc
      simp [scan_expr, exprFlag, exprEffs]

theorem unionFieldTargets_append (a b : List ScanEffect) :
    unionFieldTargets (a ++ b) =
      unionFieldTargets a ++ unionFieldTargets b := by
  unfold unionFieldTargets
  exact List.filterMap_append _ _ _

/-- `scan_path` never emits a `UnionField` effect. -/
theorem unionFieldTargets_pathDelta (R : Resolver) (p : Ident) :
    unionFieldTargets (pathDelta R p) = [] := by
  unfold pathDelta
  rw [unionFieldTargets_append, unionFieldTargets_append]
  by_cases h1 : ((R.resolve_path_type p).is_function ||
      (R.resolve_path_type p).is_fn_ptr) = true <;>
    by_cases h2 : (R.resolve_path_type p).is_mut_static = true <;>
      by_cases h3 : (R.resolve_ffi p).isSome = true <;>
        simp [h1, h2, h3, unionFieldTargets]

/-- C9: the scanner emits a `UnionField` effect for a named union-field
access exactly when the access is not the left-hand side of an
assignment (`scope_assign_lhs` is false): for any right-hand side,
scanning `u.f = rhs` emits exactly the `UnionField` effects of `rhs`
(none for the left-hand side access), while scanning `let x = u.f;`
emits exactly one `UnionField` effect targeting the resolved field. -/
theorem C9_union_field_only_on_reads (R : Resolver) (u f : Ident)
    (rhs : Expr)
    (h : (R.resolve_field_type f).is_union_field = true) :
    (unionFieldTargets (scan_body R [Stmt.expr_stmt
        (Expr.assign (Expr.field (Expr.path u) (Member.named f)) rhs)]).effects =
      unionFieldTargets (scan_body R [Stmt.expr_stmt rhs]).effects) ∧
    (unionFieldTargets (scan_body R [Stmt.local_stmt
        (some (Expr.field (Expr.path u) (Member.named f)))]).effects =
      [R.resolve_field f]) := by
  unfold scan_body
  simp only [List.foldl_cons, List.foldl_nil, scan_fn_statement]
  rw [scan_expr_eq, scan_expr_eq, scan_expr_eq]
  constructor
  · simp only [exprEffs, exprFlag, List.nil_append]
    rw [unionFieldTargets_append, unionFieldTargets_append,
      unionFieldTargets_pathDelta]
    simp [fieldDelta, unionFieldTargets]
  · simp only [exprEffs, exprFlag, List.nil_append]
    rw [unionFieldTargets_append, unionFieldTargets_pathDelta]
    simp [fieldDelta, h, unionFieldTargets]

/-- A concrete resolver for the C9 witness: every field is a union
field and resolves to itself. -/
def c9_resolver : Resolver :=
  { resolve_path := fun p => p,
    resolve_field := fun i => i,
    resolve_path_type := fun _ =>
      { is_function := false, is_fn_ptr := false, is_mut_static := false },
    resolve_field_type := fun _ =>
      { is_raw_ptr := false, is_union_field := true },
    resolve_ffi := fun _ => none }

theorem C9_union_field_only_on_reads_witness :
    ((c9_resolver.resolve_field_type "f").is_union_field = true) ∧
    ((unionFieldTargets (scan_body c9_resolver [Stmt.expr_stmt
        (Expr.assign (Expr.field (Expr.path "u") (Member.named "f"))
          Expr.lit)]).effects =
      unionFieldTargets (scan_body c9_resolver
        [Stmt.expr_stmt Expr.lit]).effects) ∧
    (unionFieldTargets (scan_body c9_resolver [Stmt.local_stmt
        (some (Expr.field (Expr.path "u") (Member.named "f")))]).effects =
      [c9_resolver.resolve_field "f"])) :=
  ⟨rfl, C9_union_field_only_on_reads c9_resolver "u" "f" Expr.lit rfl⟩

/-! ### Scan results: call graph and node-index map

The embedding follows `ScanResults` in `src/src/scanner.rs`.  The
petgraph `DiGraph` is modelled by its node list (a node's index is its
position, as `Graph::add_node` returns successive indices) and its edge
list; `node_idxs` is modelled as a function to `Option Nat`.  Only the
fields that `add_fn_dec` and `push_callsite` touch are carried. -/

/-- A source location, opaque to this development. -/
abbrev SrcLoc := String

/-- `effect::Visibility`. -/
inductive Visibility where
  | publicVis
  | other
deriving DecidableEq

/-- `effect::FnDec`: the data `add_fn_dec` consumes. -/
structure FnDec where
  src_loc : SrcLoc
  fn_name : CanonicalPath
  vis : Visibility

/-- `scanner::ScanResults` (the call-graph related fields). -/
structure ScanResults where
  pub_fns : Finset CanonicalPath
  fn_locs : CanonicalPath → Option SrcLoc
  call_graph_nodes : List CanonicalPath
  call_graph_edges : List (Nat × Nat × SrcLoc)
  node_idxs : CanonicalPath → Option Nat

/-- `ScanResults::new`. -/
def ScanResults.new : ScanResults :=
  { pub_fns := ∅, fn_locs := fun _ => none, call_graph_nodes := [],
    call_graph_edges := [], node_idxs := fun _ => none }

/-- `ScanResults::add_fn_dec`: allocate a call-graph node labelled with
the function's path, record its index in `node_idxs`, and save the
visibility and location. -/
def ScanResults.add_fn_dec (r : ScanResults) (f : FnDec) : ScanResults :=
  let node_idx := r.call_graph_nodes.length
  { pub_fns := if f.vis = .publicVis then insert f.fn_name r.pub_fns
      else r.pub_fns,
    fn_locs := fun p => if p = f.fn_name then some f.src_loc
      else r.fn_locs p,
    call_graph_nodes := r.call_graph_nodes ++ [f.fn_name],
    call_graph_edges := r.call_graph_edges,
    node_idxs := fun p => if p = f.fn_name then some node_idx
      else r.node_idxs p }

/-- The call-graph update of `Scanner::push_callsite`: an edge is added
only when both endpoints are present in `node_idxs`. -/
def ScanResults.add_call_edge (r : ScanResults) (i j : Nat) (loc : SrcLoc) :
    ScanResults :=
  { r with call_graph_edges := r.call_graph_edges ++ [(i, j, loc)] }

/-- The `ScanResults` states reachable by any sequence of `add_fn_dec`
and scanner operations (edges are only ever added by `push_callsite`,
after both endpoint lookups succeed). -/
inductive ScanResults.Reachable : ScanResults → Prop where
  | new : ScanResults.Reachable ScanResults.new
  | add_fn_dec {r : ScanResults} (f : FnDec) :
      ScanResults.Reachable r → ScanResults.Reachable (r.add_fn_dec f)
  | add_call_edge {r : ScanResults} {caller callee : CanonicalPath}
      {i j : Nat} (loc : SrcLoc) :
      ScanResults.Reachable r →
      r.node_idxs caller = some i → r.node_idxs callee = some j →
      ScanResults.Reachable (r.add_call_edge i j loc)

/-- Declaring the same function path twice: the first node keeps its
label but loses its `node_idxs` entry. -/
def c10_double : ScanResults :=
  (ScanResults.new.add_fn_dec
      { src_loc := "lib.rs:1:1", fn_name := "crate::f", vis := .other }).add_fn_dec
    { src_loc := "lib.rs:9:1", fn_name := "crate::f", vis := .other }

/-- C10, counterexample: the node-index map need not be a bijection onto
the call-graph node set.  After `add_fn_dec` is called twice with the
same path (a reachable sequence), the graph has two nodes but node `0`
is the image of no key, so "every graph node is the image of exactly one
key" fails. -/
theorem C10_counterexample :
    c10_double.Reachable ∧
    0 < c10_double.call_graph_nodes.length ∧
    ¬ ∃ p, c10_double.node_idxs p = some 0 := by
  refine ⟨ScanResults.Reachable.add_fn_dec _
    (ScanResults.Reachable.add_fn_dec _ ScanResults.Reachable.new),
    by decide, ?_⟩
  rintro ⟨p, hp⟩
  by_cases h : p = "crate::f" <;>
    simp [c10_double, ScanResults.add_fn_dec, ScanResults.new, h] at hp

/-- C10, amended: on every reachable `ScanResults`, `node_idxs` is an
injection into the call-graph node set: every key maps to a valid node
index whose label is that key (hence distinct keys map to distinct
nodes); a node can fail to be the image of a key only when its path was
declared again later. -/
theorem C10_amended_node_idxs_injection (r : ScanResults)
    (hr : r.Reachable) :
    (∀ p i, r.node_idxs p = some i →
      ∃ h : i < r.call_graph_nodes.length,
        r.call_graph_nodes.get ⟨i, h⟩ = p) ∧
    (∀ p q i, r.node_idxs p = some i → r.node_idxs q = some i → p = q) := by
  have main : ∀ p i, r.node_idxs p = some i →
      ∃ h : i < r.call_graph_nodes.length,
        r.call_graph_nodes.get ⟨i, h⟩ = p := by
    induction hr with
    | new => intro p i hp; simp [ScanResults.new] at hp
    | add_fn_dec f hr ih =>
        intro p i hp
        rename_i r'
        simp only [ScanResults.add_fn_dec] at hp ⊢
        by_cases h : p = f.fn_name
        · subst h
          rw [if_pos rfl] at hp
          injection hp with hp
          subst hp
          refine ⟨by simp, ?_⟩
          rw [List.get_eq_getElem, List.getElem_append_right (le_refl _)]
          simp
        · rw [if_neg h] at hp
          obtain ⟨hlt, hget⟩ := ih p i hp
          refine ⟨by simp only [List.length_append, List.length_cons,
            List.length_nil]; omega, ?_⟩
          rw [List.get_eq_getElem, List.getElem_append_left hlt]
          exact hget
    | add_call_edge loc hr h1 h2 ih =>
        intro p i hp
        exact ih p i hp
  refine ⟨main, fun p q i hp hq => ?_⟩
  obtain ⟨hlt1, hget1⟩ := main p i hp
  obtain ⟨hlt2, hget2⟩ := main q i hq
  rw [← hget1, ← hget2]

/-- A witness for the amended C10 after one declaration. -/
def c10_single : ScanResults :=
  ScanResults.new.add_fn_dec
    { src_loc := "lib.rs:1:1", fn_name := "crate::f", vis := .publicVis }

theorem C10_amended_node_idxs_injection_witness :
    c10_single.Reachable ∧
    ((∀ p i, c10_single.node_idxs p = some i →
        ∃ h : i < c10_single.call_graph_nodes.length,
          c10_single.call_graph_nodes.get ⟨i, h⟩ = p) ∧
      (∀ p q i, c10_single.node_idxs p = some i →
        c10_single.node_idxs q = some i → p = q)) :=
  ⟨ScanResults.Reachable.add_fn_dec _ ScanResults.Reachable.new,
    C10_amended_node_idxs_injection c10_single
      (ScanResults.Reachable.add_fn_dec _ ScanResults.Reachable.new)⟩

end CargoScan
